import Mathlib

/-
Shallow embedding of the instrument/accumulator core (package `viewstate`)
and the numeric value package (package `number`) of the repository, with
theorems checking the natural-language specification against the code.

Modelling conventions:
* Machine integers are `Nat`/`Int` with explicit reduction modulo `2 ^ 64`
  where the Go code relies on fixed-width wrap-around.
* A Go `float64` value is modelled by its IEEE-754 bit pattern, a `Nat`
  below `2 ^ 64`.  The functions of the `number` package only reinterpret
  bits (`math.Float64bits` / `math.Float64frombits` are bijections between
  a float and its pattern), so this modelling loses nothing; the one place
  an arithmetic conversion from an integer to a float occurs
  (`CoerceToFloat64` with the integer kind) is modelled by an executable
  implementation of IEEE-754 round-to-nearest-even conversion producing
  the resulting bit pattern.
* Go maps are modelled by association lists; where the faithfulness of a
  statement depends on the Go-map guarantee that keys are unique, the
  theorem carries a `Nodup` hypothesis on the key list.
-/

namespace number

/- Kind describes the data type of the Number (number.go). -/
inductive Kind where
  | Int64Kind
  | Float64Kind
deriving DecidableEq

/- Number is a 64bit numeric value (`type Number uint64`), modelled as a
`Nat`; all operations reduce modulo `2 ^ 64` so that every function is
total on `Nat` and agrees with Go on values below `2 ^ 64`. -/
abbrev Number := Nat

/- FromInt64 converts int64 to Number: `Number(n)`, the two's-complement
reinterpretation of the signed integer as a uint64. -/
def FromInt64 (i : Int) : Number := (i % ((2 : Int) ^ 64)).toNat

/- ToInt64 converts Number to int64: `int64(n)`, the signed
reinterpretation of the low 64 bits. -/
def ToInt64 (n : Nat) : Int :=
  if n % 2 ^ 64 < 2 ^ 63 then ((n % 2 ^ 64 : Nat) : Int)
  else ((n % 2 ^ 64 : Nat) : Int) - 2 ^ 64

/- FromFloat64 converts float64 to Number: `Number(math.Float64bits(n))`.
The float argument is modelled by its bit pattern, of which
`math.Float64bits` is exactly the extraction, so the function is the
identity on patterns below `2 ^ 64`. -/
def FromFloat64 (fbits : Nat) : Number := fbits % 2 ^ 64

/- ToFloat64 converts Number to float64: `math.Float64frombits(uint64(n))`.
The resulting float is modelled by its bit pattern, which is `n` itself. -/
def ToFloat64 (n : Nat) : Nat := n % 2 ^ 64

/- Floor of log base 2 by structural recursion on a fuel bound (64 bits
suffice for every uint64 input); agrees with `Nat.log2` on positive
inputs below `2 ^ 64`. -/
def log2fuel : Nat → Nat → Nat
  | 0, _ => 0
  | fuel + 1, x => if 2 ≤ x then log2fuel fuel (x / 2) + 1 else 0

/- IEEE-754 binary64 bit pattern of the Go conversion `float64(x)` for a
uint64 `x` (round to nearest, ties to even).  Every uint64 is finite in
binary64 range, so no infinity case arises. -/
def uint64ToFloat64Bits (x : Nat) : Nat :=
  if x = 0 then 0
  else
    let e := log2fuel 64 x
    if e ≤ 52 then
      (e + 1023) * 2 ^ 52 + (x * 2 ^ (52 - e) - 2 ^ 52)
    else
      let sh := e - 52
      let q := x / 2 ^ sh
      let r := x % 2 ^ sh
      let q1 := if 2 ^ (sh - 1) < r ∨ (r = 2 ^ (sh - 1) ∧ q % 2 = 1) then q + 1 else q
      if q1 = 2 ^ 53 then (e + 1024) * 2 ^ 52
      else (e + 1023) * 2 ^ 52 + (q1 - 2 ^ 52)

/- IEEE-754 binary64 bit pattern of the Go conversion `float64(i)` for a
signed int64 `i`: the specification's reading of "the float64 conversion
of the signed integer", used to compare against what the code computes. -/
def int64ToFloat64Bits (i : Int) : Nat :=
  if 0 ≤ i then uint64ToFloat64Bits i.toNat
  else 2 ^ 63 + uint64ToFloat64Bits (-i).toNat

/- CoerceToFloat64 converts Number to float64 according to Kind
(number.go): `if k == Int64Kind { return float64(n) }` — note the
conversion is applied to `n` of type `Number`, i.e. to the *unsigned*
64-bit value — `return math.Float64frombits(uint64(n))` otherwise.  The
result float is modelled by its bit pattern. -/
def CoerceToFloat64 (n : Nat) (k : Kind) : Nat :=
  match k with
  | .Int64Kind => uint64ToFloat64Bits (n % 2 ^ 64)
  | .Float64Kind => n % 2 ^ 64

end number

namespace viewstate

/- Attribute sets are opaque comparable keys; modelled as `Nat`. -/
abbrev AttrSet := Nat

/- Modelled from the spec: `pipeline.OverflowAttributeSet` (not under the
given sources), the distinguished sentinel key for the synthetic
cardinality-overflow series; any fixed key models it. -/
def OverflowAttributeSet : AttrSet := 0

/- Modelled from the spec: `aggregator.ExemplarBits` (not under the given
sources), an opaque payload threaded through `Update` that this core
never inspects. -/
structure ExemplarBits where
deriving DecidableEq

/- Modelled from the spec: the aggregation algebra `aggregator.Methods`
(an external collaborator, specified at its interface boundary):
`Update(storage, value, exemplarBits)` merges a measurement,
`Merge(src, dst)` merges `src` into `dst`, `SubtractSwap(a, b)` computes
`a := b − a`, `Copy(src, dst)` copies, `HasChange(storage)` is the
"has this changed since zero" predicate, and zero-initialized storage is
`init` (spec: `initStorage` allocates zero-initialized storage).
`Move(src, dst)` moves `src` into `dst` leaving `src` reset, which this
functional model expresses at its use sites as (`dst := src`,
`src := init`).  Operations that mutate through a pointer are modelled
as functions returning the new value of the mutated argument. -/
structure Methods (N Storage : Type) where
  init : Storage
  update : Storage → N → ExemplarBits → Storage
  merge : Storage → Storage → Storage
  subtractSwap : Storage → Storage → Storage
  copy : Storage → Storage
  hasChange : Storage → Bool

/- Temporality of an emitted point (`aggregation.CumulativeTemporality`
and `aggregation.DeltaTemporality`). -/
inductive Temporality where
  | Cumulative
  | Delta
deriving DecidableEq

/- Modelled from the spec: the collection Sequence, an immutable triple
of timestamps `{Start, Last, Now}` supplied per collection cycle. -/
structure Sequence where
  start : Nat
  last : Nat
  now : Nat
deriving DecidableEq

/- Modelled from the spec: one output point as produced by `appendPoint`
(helper not under the given sources): the attribute set, the aggregation
value carried by the point, the temporality and the time range. -/
structure Point (S : Type) where
  set : AttrSet
  aggregation : S
  temporality : Temporality
  startTime : Nat
  endTime : Nat
deriving DecidableEq

/- The points of an output list that belong to one attribute set. -/
def pointsFor {S : Type} (pts : List (Point S)) (k : AttrSet) : List (Point S) :=
  pts.filter (fun p => p.set == k)

/- storageHolder owns one aggregation state for a single timeseries plus
an auxiliary field (a reference count for synchronous instruments,
unused for asynchronous ones). -/
structure storageHolder (S A : Type) where
  storage : S
  auxiliary : A
deriving DecidableEq

/- The unused auxiliary type of asynchronous holders (`notUsed`). -/
abbrev notUsed := Unit

/- An instrument map: attribute set to holder, modelled as an
association list (Go map iteration becomes left-to-right traversal;
Go maps guarantee key uniqueness, carried as `Nodup` hypotheses). -/
abbrev InstMap (S A : Type) := List (AttrSet × storageHolder S A)

/- Collect for synchronous cumulative temporality
(statefulSyncInstrument.Collect): for every entry, append a point from
its storage as-is (no reset), cumulative temporality, time range
`[seq.Start, seq.Now]`.  `pts` is the output buffer being appended to. -/
def statefulSyncCollect {N S : Type} (M : Methods N S) (seq : Sequence)
    (data : InstMap S Int) (pts : List (Point S)) : List (Point S) :=
  match data with
  | [] => pts
  | (set, entry) :: rest =>
      statefulSyncCollect M seq rest
        (pts ++ [⟨set, entry.storage, .Cumulative, seq.start, seq.now⟩])

/- Loop body of Collect for synchronous delta temporality
(lowmemorySyncInstrument.Collect).  For each entry: capture the
reference count `numRefs` before the point-producing move; append a
point carrying the moved-out storage (reset=true: the entry's storage is
left reset), delta temporality, range `[seq.Last, seq.Now]`; `cpy` is
the moved-out value recovered from the appended point
(`methods.ToStorage(point.Aggregation)`); if it has no change, roll the
appended point back off the buffer (`dropLast`), and delete the entry
from the map when `numRefs == 0`.  Returns the final buffer and the
entries remaining in the map. -/
def lowmemorySyncLoop {N S : Type} (M : Methods N S) (seq : Sequence)
    (pts : List (Point S)) : InstMap S Int → List (Point S) × InstMap S Int
  | [] => (pts, [])
  | (set, entry) :: rest =>
      let numRefs := entry.auxiliary
      let appended := pts ++ [⟨set, entry.storage, .Delta, seq.last, seq.now⟩]
      let entry1 : storageHolder S Int := ⟨M.init, entry.auxiliary⟩
      let cpy := entry.storage
      let step : List (Point S) × InstMap S Int :=
        if M.hasChange cpy then (appended, [(set, entry1)])
        else (appended.dropLast, if numRefs = 0 then [] else [(set, entry1)])
      let res := lowmemorySyncLoop M seq step.1 rest
      (res.1, step.2 ++ res.2)

/- Collect for synchronous delta temporality, starting from an output
buffer `pts`. -/
def lowmemorySyncCollect {N S : Type} (M : Methods N S) (seq : Sequence)
    (data : InstMap S Int) (pts : List (Point S)) :
    List (Point S) × InstMap S Int :=
  lowmemorySyncLoop M seq pts data

/- Collect for asynchronous cumulative temporality
(lowmemoryAsyncInstrument.Collect): for every entry, append a point
as-is (no reset), cumulative temporality, range `[seq.Start, seq.Now]`;
afterwards the map is unconditionally replaced by an empty map. -/
def lowmemoryAsyncCollect {N S : Type} (M : Methods N S) (seq : Sequence)
    (data : InstMap S notUsed) (pts : List (Point S)) :
    List (Point S) × InstMap S notUsed :=
  match data with
  | [] => (pts, [])
  | (set, entry) :: rest =>
      let res := lowmemoryAsyncCollect M seq rest
        (pts ++ [⟨set, entry.storage, .Cumulative, seq.start, seq.now⟩])
      (res.1, [])

/- State of a statefulAsyncInstrument: the current-cycle map `data` and
the previous cycle's cumulative map `prior`. -/
structure statefulAsyncState (S : Type) where
  data : InstMap S notUsed
  prior : InstMap S notUsed
deriving DecidableEq

/- Loop body of Collect for asynchronous delta temporality
(statefulAsyncInstrument.Collect).  For each entry of `data`: remember
the entry when its key is the overflow set (`ofe`); look the key up in
`prior`; if found, `SubtractSwap` computes the delta (`pval := current −
prior`, mutating the prior holder, which the rotation afterwards
discards) and the series is skipped when the delta has no change,
otherwise the computed difference is appended; if not found, the current
value itself is appended.  Returns the appended points and the last
overflow entry seen. -/
def statefulAsyncLoop {N S : Type} (M : Methods N S)
    (prior : InstMap S notUsed) (seq : Sequence) :
    InstMap S notUsed → List (Point S) × Option S
  | [] => ([], none)
  | (set, entry) :: rest =>
      let ofe0 : Option S :=
        if set = OverflowAttributeSet then some entry.storage else none
      let pt : Option (Point S) :=
        match List.lookup set prior with
        | some pval =>
            let d := M.subtractSwap pval.storage entry.storage
            if M.hasChange d then some ⟨set, d, .Delta, seq.last, seq.now⟩
            else none
        | none => some ⟨set, entry.storage, .Delta, seq.last, seq.now⟩
      let res := statefulAsyncLoop M prior seq rest
      (pt.toList ++ res.1,
       match res.2 with
       | some s => some s
       | none => ofe0)

/- Collect for asynchronous delta temporality: run the loop, rotate the
maps (`prior := data`, `data :=` fresh empty map), and when the overflow
set was present among the scanned entries, place a fresh holder carrying
a copy of its post-scan cumulative value into the new `data` map. -/
def statefulAsyncCollect {N S : Type} (M : Methods N S) (seq : Sequence)
    (st : statefulAsyncState S) : List (Point S) × statefulAsyncState S :=
  let res := statefulAsyncLoop M st.prior seq st.data
  let data1 : InstMap S notUsed :=
    match res.2 with
    | some s => [(OverflowAttributeSet, ⟨M.copy s, ()⟩)]
    | none => []
  (res.1, ⟨data1, st.data⟩)

/- syncAccumulator: two private staging storages. -/
structure syncAccumulator (S : Type) where
  current : S
  snapshot : S
deriving DecidableEq

/- NewAccumulator for a synchronous instrument view zero-initializes
both staging storages (`initStorage`). -/
def newSyncAccumulator {N S : Type} (M : Methods N S) : syncAccumulator S :=
  ⟨M.init, M.init⟩

/- syncAccumulator.Update: merge the measurement into `current`. -/
def syncUpdate {N S : Type} (M : Methods N S) (a : syncAccumulator S)
    (v : N) (ex : ExemplarBits) : syncAccumulator S :=
  { a with current := M.update a.current v ex }

/- syncAccumulator.SnapshotAndProcess(release): under the private lock,
`Move(&current, &snapshot)` (snapshot receives current, current is left
reset), `Merge(&snapshot, &holder.storage)`, and when `release` is true
decrement the holder's reference count by one.  Returns the new
accumulator and the new bound holder. -/
def syncSnapshotAndProcess {N S : Type} (M : Methods N S) (release : Bool)
    (a : syncAccumulator S) (h : storageHolder S Int) :
    syncAccumulator S × storageHolder S Int :=
  let snapshot1 := a.current
  let current1 := M.init
  let storage1 := M.merge snapshot1 h.storage
  let aux1 := h.auxiliary - (if release then 1 else 0)
  (⟨current1, snapshot1⟩, ⟨storage1, aux1⟩)

/- asyncAccumulator.Update overwrites the staged value (last-value
semantics). -/
def asyncUpdate {N : Type} (current v : N) : N := v

/- asyncAccumulator.SnapshotAndProcess(_ bool): the release argument is
ignored; the staged value is applied to the bound holder's storage via
`methods.Update(&holder.storage, a.current, aggregator.ExemplarBits{})`.
Returns the new holder storage. -/
def asyncSnapshotAndProcess {N S : Type} (M : Methods N S)
    (release : Bool) (current : N) (hstorage : S) : S :=
  M.update hstorage current ⟨⟩

/- The integer sum algebra, the simplest instance of the interface
(spec: a "sum-like storage" where Update adds the value): storage is the
running sum. -/
def sumMethods : Methods Int Int where
  init := 0
  update := fun s n _ => s + n
  merge := fun src dst => dst + src
  subtractSwap := fun a b => b - a
  copy := fun s => s
  hasChange := fun s => s != 0

/- The point (or skip) that the stateful-async loop produces for one
entry, as a function of the prior map: the loop body's emission. -/
def asyncEmit {N S : Type} (M : Methods N S) (prior : InstMap S notUsed)
    (seq : Sequence) (e : AttrSet × storageHolder S notUsed) :
    Option (Point S) :=
  match List.lookup e.1 prior with
  | some pval =>
      let d := M.subtractSwap pval.storage e.2.storage
      if M.hasChange d then some ⟨e.1, d, .Delta, seq.last, seq.now⟩
      else none
  | none => some ⟨e.1, e.2.storage, .Delta, seq.last, seq.now⟩

/- The point (or rollback) that the low-memory-sync loop leaves in the
output buffer for one entry. -/
def syncEmit {N S : Type} (M : Methods N S) (seq : Sequence)
    (e : AttrSet × storageHolder S Int) : Option (Point S) :=
  if M.hasChange e.2.storage then
    some ⟨e.1, e.2.storage, .Delta, seq.last, seq.now⟩
  else none

/- What the low-memory-sync loop leaves in the map for one entry: kept
(with moved-out, reset storage) unless the value is unchanged and the
captured reference count was zero. -/
def syncKeep {N S : Type} (M : Methods N S)
    (e : AttrSet × storageHolder S Int) :
    Option (AttrSet × storageHolder S Int) :=
  if M.hasChange e.2.storage then some (e.1, ⟨M.init, e.2.auxiliary⟩)
  else if e.2.auxiliary = 0 then none
  else some (e.1, ⟨M.init, e.2.auxiliary⟩)

/- Sequentialised form of the no-lost-updates scenario: every
accumulator in `accs` performs its `SnapshotAndProcess(release=true)`
against the shared bound holder.  The per-accumulator updates touch only
that accumulator's private `current`, and the shared merges are
additions, so any interleaving of the concurrent schedule yields this
fold's result. -/
def processAll {N S : Type} (M : Methods N S)
    (accs : List (syncAccumulator S)) (h : storageHolder S Int) :
    storageHolder S Int :=
  accs.foldl (fun h a => (syncSnapshotAndProcess M true a h).2) h

/- `n` freshly bound synchronous accumulators, each updated once with
value `v` (sum algebra). -/
def nUpdatedAccumulators (n : Nat) (v : Int) : List (syncAccumulator Int) :=
  List.replicate n
    (syncUpdate sumMethods (newSyncAccumulator sumMethods) v ExemplarBits.mk)

theorem lookup_cons {β : Type} (k a : AttrSet) (b : β) (l : List (AttrSet × β)) :
    List.lookup k ((a, b) :: l) = if k = a then some b else List.lookup k l := by
  simp only [List.lookup]
  by_cases hka : k = a
  · subst hka; simp
  · have h2 : (k == a) = false := by simp [hka]
    simp [h2, hka]

theorem lookup_mem_keys {β : Type} (k : AttrSet) (l : List (AttrSet × β)) (v : β)
    (h : List.lookup k l = some v) : k ∈ l.map Prod.fst := by
  induction l with
  | nil => simp [List.lookup] at h
  | cons e rest ih =>
    obtain ⟨a, b⟩ := e
    rw [lookup_cons] at h
    by_cases hka : k = a
    · simp [hka]
    · simp only [if_neg hka] at h
      simp [ih h]

theorem pointsFor_append {S : Type} (a b : List (Point S)) (k : AttrSet) :
    pointsFor (a ++ b) k = pointsFor a k ++ pointsFor b k :=
  List.filter_append ..

theorem pointsFor_filterMap_of_not_mem {S α : Type}
    (f : AttrSet × α → Option (Point S))
    (hf : ∀ e p, f e = some p → p.set = e.1)
    (data : List (AttrSet × α)) (k : AttrSet)
    (hk : k ∉ data.map Prod.fst) :
    pointsFor (data.filterMap f) k = [] := by
  induction data with
  | nil => rfl
  | cons e rest ih =>
    simp only [List.map_cons, List.mem_cons, not_or] at hk
    obtain ⟨hne, hrest⟩ := hk
    cases hfe : f e with
    | none => rw [List.filterMap_cons_none hfe]; exact ih hrest
    | some p =>
      rw [List.filterMap_cons_some hfe]
      have hps : p.set = e.1 := hf e p hfe
      have : (p.set == k) = false := by simp [hps]; exact fun h => hne h.symm
      simp only [pointsFor, List.filter_cons, this]
      exact ih hrest

theorem pointsFor_filterMap_of_lookup {S α : Type}
    (f : AttrSet × α → Option (Point S))
    (hf : ∀ e p, f e = some p → p.set = e.1)
    (data : List (AttrSet × α)) (k : AttrSet) (v : α)
    (hnd : (data.map Prod.fst).Nodup)
    (hlk : List.lookup k data = some v) :
    pointsFor (data.filterMap f) k = (f (k, v)).toList := by
  induction data with
  | nil => simp [List.lookup] at hlk
  | cons e rest ih =>
    obtain ⟨a, b⟩ := e
    simp only [List.map_cons, List.nodup_cons] at hnd
    obtain ⟨hna, hndr⟩ := hnd
    rw [lookup_cons] at hlk
    by_cases hka : k = a
    · subst hka
      rw [if_pos rfl] at hlk
      have hbv : b = v := Option.some.inj hlk
      rw [hbv]
      have hrest : pointsFor (rest.filterMap f) k =
          [] := pointsFor_filterMap_of_not_mem f hf rest k hna
      cases hfe : f (k, v) with
      | none =>
        rw [List.filterMap_cons_none hfe]
        simp [hrest, Option.toList]
      | some p =>
        rw [List.filterMap_cons_some hfe]
        have hps : p.set = k := hf (k, v) p hfe
        simp only [pointsFor, List.filter_cons] at hrest ⊢
        simp [hps, hrest, Option.toList]
    · simp only [if_neg hka] at hlk
      cases hfe : f (a, b) with
      | none => rw [List.filterMap_cons_none hfe]; exact ih hndr hlk
      | some p =>
        rw [List.filterMap_cons_some hfe]
        have hps : p.set = a := hf (a, b) p hfe
        have hfalse : (p.set == k) = false := by
          simp [hps]; exact fun h => hka h.symm
        simp only [pointsFor, List.filter_cons, hfalse]
        exact ih hndr hlk

theorem lookup_filterMap_of_not_mem {α β : Type}
    (f : AttrSet × α → Option (AttrSet × β))
    (hf : ∀ e r, f e = some r → r.1 = e.1)
    (data : List (AttrSet × α)) (k : AttrSet)
    (hk : k ∉ data.map Prod.fst) :
    List.lookup k (data.filterMap f) = none := by
  induction data with
  | nil => rfl
  | cons e rest ih =>
    simp only [List.map_cons, List.mem_cons, not_or] at hk
    obtain ⟨hne, hrest⟩ := hk
    cases hfe : f e with
    | none => rw [List.filterMap_cons_none hfe]; exact ih hrest
    | some r =>
      obtain ⟨r1, r2⟩ := r
      rw [List.filterMap_cons_some hfe]
      have hr : r1 = e.1 := hf e (r1, r2) hfe
      rw [lookup_cons, if_neg (by rw [hr]; exact hne)]
      exact ih hrest

theorem lookup_filterMap_of_lookup {α β : Type}
    (f : AttrSet × α → Option (AttrSet × β))
    (hf : ∀ e r, f e = some r → r.1 = e.1)
    (data : List (AttrSet × α)) (k : AttrSet) (v : α)
    (hnd : (data.map Prod.fst).Nodup)
    (hlk : List.lookup k data = some v) :
    List.lookup k (data.filterMap f) = (f (k, v)).map Prod.snd := by
  induction data with
  | nil => simp [List.lookup] at hlk
  | cons e rest ih =>
    obtain ⟨a, b⟩ := e
    simp only [List.map_cons, List.nodup_cons] at hnd
    obtain ⟨hna, hndr⟩ := hnd
    rw [lookup_cons] at hlk
    by_cases hka : k = a
    · subst hka
      rw [if_pos rfl] at hlk
      have hbv : b = v := Option.some.inj hlk
      rw [hbv]
      have hrest := lookup_filterMap_of_not_mem f hf rest k hna
      cases hfe : f (k, v) with
      | none => rw [List.filterMap_cons_none hfe]; simp [hrest, hfe]
      | some r =>
        obtain ⟨r1, r2⟩ := r
        have hr : r1 = k := hf (k, v) (r1, r2) hfe
        subst hr
        rw [List.filterMap_cons_some hfe, lookup_cons, if_pos rfl]
        rfl
    · simp only [if_neg hka] at hlk
      cases hfe : f (a, b) with
      | none => rw [List.filterMap_cons_none hfe]; exact ih hndr hlk
      | some r =>
        obtain ⟨r1, r2⟩ := r
        have hr : r1 = a := hf (a, b) (r1, r2) hfe
        rw [List.filterMap_cons_some hfe, lookup_cons,
          if_neg (by rw [hr]; exact hka)]
        exact ih hndr hlk

theorem statefulAsyncLoop_fst {N S : Type} (M : Methods N S)
    (prior : InstMap S notUsed) (seq : Sequence) (data : InstMap S notUsed) :
    (statefulAsyncLoop M prior seq data).1 =
      data.filterMap (asyncEmit M prior seq) := by
  induction data with
  | nil => rfl
  | cons e rest ih =>
    obtain ⟨set, entry⟩ := e
    simp only [statefulAsyncLoop]
    cases hL : List.lookup set prior with
    | none =>
      have hfe : asyncEmit M prior seq (set, entry) =
          some ⟨set, entry.storage, .Delta, seq.last, seq.now⟩ := by
        simp [asyncEmit, hL]
      rw [List.filterMap_cons_some hfe]
      simp [hL, ih, Option.toList]
    | some pval =>
      by_cases hc : M.hasChange (M.subtractSwap pval.storage entry.storage)
      · have hfe : asyncEmit M prior seq (set, entry) =
            some ⟨set, M.subtractSwap pval.storage entry.storage, .Delta,
              seq.last, seq.now⟩ := by
          simp [asyncEmit, hL, hc]
        rw [List.filterMap_cons_some hfe]
        simp [hL, hc, ih, Option.toList]
      · have hfe : asyncEmit M prior seq (set, entry) = none := by
          simp [asyncEmit, hL, hc]
        rw [List.filterMap_cons_none hfe]
        simp [hL, hc, ih, Option.toList]

theorem statefulAsyncLoop_snd_of_not_mem {N S : Type} (M : Methods N S)
    (prior : InstMap S notUsed) (seq : Sequence) (data : InstMap S notUsed)
    (h : OverflowAttributeSet ∉ data.map Prod.fst) :
    (statefulAsyncLoop M prior seq data).2 = none := by
  induction data with
  | nil => rfl
  | cons e rest ih =>
    obtain ⟨set, entry⟩ := e
    simp only [List.map_cons, List.mem_cons, not_or] at h
    obtain ⟨hne, hrest⟩ := h
    have hne2 : ¬set = OverflowAttributeSet := fun hc => hne hc.symm
    simp only [statefulAsyncLoop, ih hrest]
    simp [hne2]

theorem statefulAsyncLoop_snd {N S : Type} (M : Methods N S)
    (prior : InstMap S notUsed) (seq : Sequence) (data : InstMap S notUsed)
    (hnd : (data.map Prod.fst).Nodup) :
    (statefulAsyncLoop M prior seq data).2 =
      (List.lookup OverflowAttributeSet data).map (fun h => h.storage) := by
  induction data with
  | nil => rfl
  | cons e rest ih =>
    obtain ⟨set, entry⟩ := e
    simp only [List.map_cons, List.nodup_cons] at hnd
    obtain ⟨hna, hndr⟩ := hnd
    by_cases hset : set = OverflowAttributeSet
    · subst hset
      simp only [statefulAsyncLoop,
        statefulAsyncLoop_snd_of_not_mem M prior seq rest hna]
      simp [lookup_cons]
    · have hset2 : ¬OverflowAttributeSet = set := fun hc => hset hc.symm
      simp only [statefulAsyncLoop, ih hndr]
      cases hE : List.lookup OverflowAttributeSet rest with
      | none => simp [lookup_cons, hset, hset2, hE]
      | some w => simp [lookup_cons, hset2, hE]

theorem lowmemorySyncLoop_eq {N S : Type} (M : Methods N S) (seq : Sequence)
    (data : InstMap S Int) : ∀ pts : List (Point S),
    lowmemorySyncLoop M seq pts data =
      (pts ++ data.filterMap (syncEmit M seq), data.filterMap (syncKeep M)) := by
  induction data with
  | nil => intro pts; simp [lowmemorySyncLoop]
  | cons e rest ih =>
    intro pts
    obtain ⟨set, entry⟩ := e
    simp only [lowmemorySyncLoop]
    by_cases hc : M.hasChange entry.storage
    · have he : syncEmit M seq (set, entry) =
          some ⟨set, entry.storage, .Delta, seq.last, seq.now⟩ := by
        simp [syncEmit, hc]
      have hk : syncKeep M (set, entry) =
          some (set, ⟨M.init, entry.auxiliary⟩) := by
        simp [syncKeep, hc]
      rw [List.filterMap_cons_some he, List.filterMap_cons_some hk]
      simp [hc, ih]
    · have he : syncEmit M seq (set, entry) = none := by simp [syncEmit, hc]
      by_cases ha : entry.auxiliary = 0
      · have hk : syncKeep M (set, entry) = none := by simp [syncKeep, hc, ha]
        rw [List.filterMap_cons_none he, List.filterMap_cons_none hk]
        simp [hc, ha, ih, List.dropLast_concat]
      · have hk : syncKeep M (set, entry) =
            some (set, ⟨M.init, entry.auxiliary⟩) := by
          simp [syncKeep, hc, ha]
        rw [List.filterMap_cons_none he, List.filterMap_cons_some hk]
        simp [hc, ha, ih, List.dropLast_concat]

theorem lookup_eq_none_of_not_mem {β : Type} (k : AttrSet)
    (l : List (AttrSet × β)) (h : k ∉ l.map Prod.fst) :
    List.lookup k l = none := by
  induction l with
  | nil => rfl
  | cons e rest ih =>
    obtain ⟨a, b⟩ := e
    simp only [List.map_cons, List.mem_cons, not_or] at h
    rw [lookup_cons, if_neg h.1]
    exact ih h.2

theorem asyncEmit_set {N S : Type} (M : Methods N S)
    (prior : InstMap S notUsed) (seq : Sequence) :
    ∀ e p, asyncEmit M prior seq e = some p → p.set = e.1 := by
  intro e p h
  simp only [asyncEmit] at h
  cases hL : List.lookup e.1 prior with
  | none =>
    rw [hL] at h
    have := Option.some.inj h
    subst this
    rfl
  | some pval =>
    rw [hL] at h
    by_cases hc : M.hasChange (M.subtractSwap pval.storage e.2.storage)
    · simp only [hc, if_true] at h
      have := Option.some.inj h
      subst this
      rfl
    · simp [hc] at h

theorem syncEmit_set {N S : Type} (M : Methods N S) (seq : Sequence) :
    ∀ e p, syncEmit M seq e = some p → p.set = e.1 := by
  intro e p h
  simp only [syncEmit] at h
  by_cases hc : M.hasChange e.2.storage
  · simp only [hc, if_true] at h
    have := Option.some.inj h
    subst this
    rfl
  · simp [hc] at h

theorem syncKeep_key {N S : Type} (M : Methods N S) :
    ∀ e r, syncKeep M e = some r → r.1 = e.1 := by
  intro e r h
  simp only [syncKeep] at h
  by_cases hc : M.hasChange e.2.storage
  · simp only [hc, if_true] at h
    have := Option.some.inj h
    subst this
    rfl
  · by_cases ha : e.2.auxiliary = 0
    · simp [hc, ha] at h
    · simp only [hc, if_false, ha, ite_false] at h
      have := Option.some.inj h
      subst this
      rfl

theorem statefulAsyncCollect_fst {N S : Type} (M : Methods N S)
    (seq : Sequence) (st : statefulAsyncState S) :
    (statefulAsyncCollect M seq st).1 =
      st.data.filterMap (asyncEmit M st.prior seq) :=
  statefulAsyncLoop_fst M st.prior seq st.data

theorem statefulAsyncCollect_prior {N S : Type} (M : Methods N S)
    (seq : Sequence) (st : statefulAsyncState S) :
    (statefulAsyncCollect M seq st).2.prior = st.data := rfl

theorem statefulAsyncCollect_data {N S : Type} (M : Methods N S)
    (seq : Sequence) (st : statefulAsyncState S)
    (hnd : (st.data.map Prod.fst).Nodup) :
    (statefulAsyncCollect M seq st).2.data =
      match List.lookup OverflowAttributeSet st.data with
      | some e => [(OverflowAttributeSet, ⟨M.copy e.storage, ()⟩)]
      | none => [] := by
  simp only [statefulAsyncCollect,
    statefulAsyncLoop_snd M st.prior seq st.data hnd]
  cases List.lookup OverflowAttributeSet st.data with
  | none => rfl
  | some e => rfl

/-- C1: for the stateful-asynchronous instrument's Collect, a series whose
key is found in the prior map has its delta computed by the algebra's
subtract-and-swap (current − prior); no point is emitted for it when
`HasChange` of the difference is false, and otherwise the computed
difference is the emitted value; a series not found in the prior map is
emitted with its current value.  Consequently, for the sum algebra,
cumulative inputs `c1` then `c2` across two consecutive cycles make the
second cycle report exactly the delta `c2 − c1`, with no point at all
when `c1 = c2`. -/
theorem statefulAsync_collect_delta_spec :
    (∀ (N S : Type) (M : Methods N S) (seq : Sequence)
       (st : statefulAsyncState S) (k : AttrSet)
       (entry pval : storageHolder S notUsed),
       (st.data.map Prod.fst).Nodup →
       List.lookup k st.data = some entry →
       List.lookup k st.prior = some pval →
       pointsFor (statefulAsyncCollect M seq st).1 k =
         (if M.hasChange (M.subtractSwap pval.storage entry.storage) then
            [⟨k, M.subtractSwap pval.storage entry.storage, .Delta,
              seq.last, seq.now⟩]
          else []))
    ∧ (∀ (N S : Type) (M : Methods N S) (seq : Sequence)
         (st : statefulAsyncState S) (k : AttrSet)
         (entry : storageHolder S notUsed),
         (st.data.map Prod.fst).Nodup →
         List.lookup k st.data = some entry →
         List.lookup k st.prior = none →
         pointsFor (statefulAsyncCollect M seq st).1 k =
           [⟨k, entry.storage, .Delta, seq.last, seq.now⟩])
    ∧ (∀ (k : AttrSet) (c1 c2 : Int) (seq1 seq2 : Sequence),
         (statefulAsyncCollect sumMethods seq1 ⟨[(k, ⟨c1, ()⟩)], []⟩).1 =
           [⟨k, c1, .Delta, seq1.last, seq1.now⟩]
         ∧ (statefulAsyncCollect sumMethods seq1
             ⟨[(k, ⟨c1, ()⟩)], []⟩).2.prior = [(k, ⟨c1, ()⟩)]
         ∧ (statefulAsyncCollect sumMethods seq2
             ⟨[(k, ⟨c2, ()⟩)],
              (statefulAsyncCollect sumMethods seq1
                ⟨[(k, ⟨c1, ()⟩)], []⟩).2.prior⟩).1 =
           (if c2 = c1 then []
            else [⟨k, c2 - c1, .Delta, seq2.last, seq2.now⟩])) := by
  refine ⟨?_, ?_, ?_⟩
  · intro N S M seq st k entry pval hnd hd hp
    rw [statefulAsyncCollect_fst,
      pointsFor_filterMap_of_lookup _ (asyncEmit_set M st.prior seq)
        st.data k entry hnd hd]
    by_cases hc : M.hasChange (M.subtractSwap pval.storage entry.storage) <;>
      simp [asyncEmit, hp, hc, Option.toList]
  · intro N S M seq st k entry hnd hd hp
    rw [statefulAsyncCollect_fst,
      pointsFor_filterMap_of_lookup _ (asyncEmit_set M st.prior seq)
        st.data k entry hnd hd]
    simp [asyncEmit, hp, Option.toList]
  · intro k c1 c2 seq1 seq2
    refine ⟨?_, rfl, ?_⟩
    · simp [statefulAsyncCollect, statefulAsyncLoop, List.lookup]
    · rw [statefulAsyncCollect_prior]
      by_cases hc : c2 = c1
      · subst hc
        simp [statefulAsyncCollect, statefulAsyncLoop, lookup_cons,
          sumMethods]
      · have h0 : ¬c2 - c1 = 0 := by omega
        simp [statefulAsyncCollect, statefulAsyncLoop, lookup_cons,
          sumMethods, hc, h0]

/-- C1 witness: a concrete instantiation of the prior-hit branch — current
value 7 against prior value 3 reports the delta 4. -/
theorem statefulAsync_collect_delta_spec_witness :
    pointsFor (statefulAsyncCollect sumMethods ⟨0, 1, 2⟩
      ⟨[(1, ⟨7, ()⟩)], [(1, ⟨3, ()⟩)]⟩).1 1 = [⟨1, 4, .Delta, 1, 2⟩] := by
  have h := statefulAsync_collect_delta_spec.1 Int Int sumMethods ⟨0, 1, 2⟩
    ⟨[(1, ⟨7, ()⟩)], [(1, ⟨3, ()⟩)]⟩ 1 ⟨7, ()⟩ ⟨3, ()⟩
    (by decide) (by decide) (by decide)
  simpa using h

/-- C2: after a stateful-asynchronous Collect in which the Overflow Set
key was present in the scanned map, the fresh current map holds exactly
one entry: the Overflow Set key bound to a copy of that entry's
post-scan cumulative value; every other key is absent.  Consequently
(sum algebra) the overflow series keeps its cumulative value across a
further cycle in which no new overflow measurement occurs. -/
theorem statefulAsync_overflow_carry_spec :
    (∀ (N S : Type) (M : Methods N S) (seq : Sequence)
       (st : statefulAsyncState S) (entry : storageHolder S notUsed),
       (st.data.map Prod.fst).Nodup →
       List.lookup OverflowAttributeSet st.data = some entry →
       (statefulAsyncCollect M seq st).2.data =
         [(OverflowAttributeSet, ⟨M.copy entry.storage, ()⟩)])
    ∧ (∀ (N S : Type) (M : Methods N S) (seq : Sequence)
         (st : statefulAsyncState S) (k : AttrSet),
         k ≠ OverflowAttributeSet →
         List.lookup k (statefulAsyncCollect M seq st).2.data = none)
    ∧ (∀ (seq1 seq2 : Sequence) (st : statefulAsyncState Int) (s : Int),
         (st.data.map Prod.fst).Nodup →
         List.lookup OverflowAttributeSet st.data = some ⟨s, ()⟩ →
         List.lookup OverflowAttributeSet
           (statefulAsyncCollect sumMethods seq2
             (statefulAsyncCollect sumMethods seq1 st).2).2.data =
           some ⟨s, ()⟩) := by
  refine ⟨?_, ?_, ?_⟩
  · intro N S M seq st entry hnd hlk
    rw [statefulAsyncCollect_data M seq st hnd, hlk]
  · intro N S M seq st k hk
    simp only [statefulAsyncCollect]
    cases (statefulAsyncLoop M st.prior seq st.data).2 with
    | none => rfl
    | some s => rw [lookup_cons, if_neg hk]; rfl
  · intro seq1 seq2 st s hnd hlk
    have h1 : (statefulAsyncCollect sumMethods seq1 st).2.data =
        [(OverflowAttributeSet, ⟨s, ()⟩)] := by
      rw [statefulAsyncCollect_data sumMethods seq1 st hnd, hlk]
      simp [sumMethods]
    have hnd2 : (((statefulAsyncCollect sumMethods seq1 st).2.data).map
        Prod.fst).Nodup := by
      rw [h1]; simp
    rw [statefulAsyncCollect_data sumMethods seq2
      (statefulAsyncCollect sumMethods seq1 st).2 hnd2, h1]
    simp [lookup_cons, sumMethods]

/-- C2 witness: an overflow entry with cumulative value 9 is carried into
the fresh map after collection, and survives a further empty cycle. -/
theorem statefulAsync_overflow_carry_spec_witness :
    (statefulAsyncCollect sumMethods ⟨0, 1, 2⟩
      ⟨[(OverflowAttributeSet, ⟨9, ()⟩)], []⟩).2.data =
      [(OverflowAttributeSet, ⟨9, ()⟩)] := by
  have h := statefulAsync_overflow_carry_spec.1 Int Int sumMethods ⟨0, 1, 2⟩
    ⟨[(OverflowAttributeSet, ⟨9, ()⟩)], []⟩ ⟨9, ()⟩ (by decide) (by decide)
  simpa using h

/-- C9: a series present in the prior map but absent from the cycle's
data map is dropped by the stateful-asynchronous Collect: no point is
emitted for it, and its key is absent from the new prior map after the
rotation; when it later reappears with its cumulative value and the
prior map does not hold it, the cumulative value is emitted in full as
its own delta. -/
theorem statefulAsync_dropped_series_spec :
    (∀ (N S : Type) (M : Methods N S) (seq : Sequence)
       (st : statefulAsyncState S) (k : AttrSet)
       (pval : storageHolder S notUsed),
       List.lookup k st.prior = some pval →
       k ∉ st.data.map Prod.fst →
       pointsFor (statefulAsyncCollect M seq st).1 k = []
       ∧ List.lookup k (statefulAsyncCollect M seq st).2.prior = none)
    ∧ (∀ (N S : Type) (M : Methods N S) (seq : Sequence)
         (st : statefulAsyncState S) (k : AttrSet)
         (entry : storageHolder S notUsed),
         (st.data.map Prod.fst).Nodup →
         List.lookup k st.prior = none →
         List.lookup k st.data = some entry →
         pointsFor (statefulAsyncCollect M seq st).1 k =
           [⟨k, entry.storage, .Delta, seq.last, seq.now⟩]) := by
  constructor
  · intro N S M seq st k pval hp hk
    refine ⟨?_, ?_⟩
    · rw [statefulAsyncCollect_fst]
      exact pointsFor_filterMap_of_not_mem _ (asyncEmit_set M st.prior seq)
        st.data k hk
    · rw [statefulAsyncCollect_prior]
      exact lookup_eq_none_of_not_mem k st.data hk
  · intro N S M seq st k entry hnd hp hd
    rw [statefulAsyncCollect_fst,
      pointsFor_filterMap_of_lookup _ (asyncEmit_set M st.prior seq)
        st.data k entry hnd hd]
    simp [asyncEmit, hp, Option.toList]

/-- C9 witness: a series seen in the prior map with value 4 but absent
from the current cycle produces no point and disappears from the new
prior map. -/
theorem statefulAsync_dropped_series_spec_witness :
    pointsFor (statefulAsyncCollect sumMethods ⟨0, 1, 2⟩
      ⟨[], [(1, ⟨4, ()⟩)]⟩).1 1 = []
    ∧ List.lookup 1 (statefulAsyncCollect sumMethods ⟨0, 1, 2⟩
        ⟨[], [(1, ⟨4, ()⟩)]⟩).2.prior = none := by
  have h := statefulAsync_dropped_series_spec.1 Int Int sumMethods ⟨0, 1, 2⟩
    ⟨[], [(1, ⟨4, ()⟩)]⟩ 1 ⟨4, ()⟩ (by decide) (by decide)
  simpa using h

theorem lowmemorySyncCollect_eq {N S : Type} (M : Methods N S)
    (seq : Sequence) (data : InstMap S Int) (pts : List (Point S)) :
    lowmemorySyncCollect M seq data pts =
      (pts ++ data.filterMap (syncEmit M seq), data.filterMap (syncKeep M)) :=
  lowmemorySyncLoop_eq M seq data pts

/-- C3: for the low-memory-synchronous Collect, each entry contributes a
delta point carrying the moved-out storage exactly when the moved-out
value's `HasChange` holds (otherwise the speculatively appended point is
rolled back and the output for that series is unchanged); an entry
remains in the map, with its storage reset, exactly when the value
changed or the captured reference count was nonzero — so an entry is
deleted if and only if `HasChange` is false and the captured reference
count was zero, and never while the count is positive or the value
changed. -/
theorem lowmemorySync_collect_retention_spec :
    (∀ (N S : Type) (M : Methods N S) (seq : Sequence) (data : InstMap S Int)
       (pts : List (Point S)) (k : AttrSet) (entry : storageHolder S Int),
       (data.map Prod.fst).Nodup →
       List.lookup k data = some entry →
       pointsFor (lowmemorySyncCollect M seq data pts).1 k =
         pointsFor pts k ++
           (if M.hasChange entry.storage then
              [⟨k, entry.storage, .Delta, seq.last, seq.now⟩]
            else [])
       ∧ List.lookup k (lowmemorySyncCollect M seq data pts).2 =
           (if M.hasChange entry.storage ∨ entry.auxiliary ≠ 0 then
              some ⟨M.init, entry.auxiliary⟩
            else none))
    ∧ (∀ (N S : Type) (M : Methods N S) (seq : Sequence) (data : InstMap S Int)
         (pts : List (Point S)) (k : AttrSet) (entry : storageHolder S Int),
         (data.map Prod.fst).Nodup →
         List.lookup k data = some entry →
         (0 < entry.auxiliary ∨ M.hasChange entry.storage) →
         k ∈ (lowmemorySyncCollect M seq data pts).2.map Prod.fst) := by
  have hmain : ∀ (N S : Type) (M : Methods N S) (seq : Sequence)
      (data : InstMap S Int) (pts : List (Point S)) (k : AttrSet)
      (entry : storageHolder S Int),
      (data.map Prod.fst).Nodup →
      List.lookup k data = some entry →
      pointsFor (lowmemorySyncCollect M seq data pts).1 k =
        pointsFor pts k ++
          (if M.hasChange entry.storage then
             [⟨k, entry.storage, .Delta, seq.last, seq.now⟩]
           else [])
      ∧ List.lookup k (lowmemorySyncCollect M seq data pts).2 =
          (if M.hasChange entry.storage ∨ entry.auxiliary ≠ 0 then
             some ⟨M.init, entry.auxiliary⟩
           else none) := by
    intro N S M seq data pts k entry hnd hlk
    rw [lowmemorySyncCollect_eq]
    constructor
    · rw [pointsFor_append,
        pointsFor_filterMap_of_lookup _ (syncEmit_set M seq) data k entry
          hnd hlk]
      by_cases hc : M.hasChange entry.storage <;>
        simp [syncEmit, hc, Option.toList]
    · rw [lookup_filterMap_of_lookup _ (syncKeep_key M) data k entry hnd hlk]
      by_cases hc : M.hasChange entry.storage
      · simp [syncKeep, hc]
      · by_cases ha : entry.auxiliary = 0 <;> simp [syncKeep, hc, ha]
  refine ⟨hmain, ?_⟩
  intro N S M seq data pts k entry hnd hlk hlive
  have h2 := (hmain N S M seq data pts k entry hnd hlk).2
  have hcond : M.hasChange entry.storage ∨ entry.auxiliary ≠ 0 := by
    rcases hlive with h | h
    · exact Or.inr (by omega)
    · exact Or.inl h
  rw [if_pos hcond] at h2
  exact lookup_mem_keys k _ _ h2

/-- C3 witness: with the sum algebra, an entry with value 5 is emitted
and kept reset, and an unchanged entry with captured reference count 0
is deleted. -/
theorem lowmemorySync_collect_retention_spec_witness :
    pointsFor (lowmemorySyncCollect sumMethods ⟨0, 1, 2⟩
      [(1, ⟨5, 0⟩), (3, ⟨0, 0⟩)] []).1 1 = [⟨1, 5, .Delta, 1, 2⟩]
    ∧ List.lookup 3 (lowmemorySyncCollect sumMethods ⟨0, 1, 2⟩
        [(1, ⟨5, 0⟩), (3, ⟨0, 0⟩)] []).2 = none := by
  have h1 := (lowmemorySync_collect_retention_spec.1 Int Int sumMethods
    ⟨0, 1, 2⟩ [(1, ⟨5, 0⟩), (3, ⟨0, 0⟩)] [] 1 ⟨5, 0⟩
    (by decide) (by decide)).1
  have h3 := (lowmemorySync_collect_retention_spec.1 Int Int sumMethods
    ⟨0, 1, 2⟩ [(1, ⟨5, 0⟩), (3, ⟨0, 0⟩)] [] 3 ⟨0, 0⟩
    (by decide) (by decide)).2
  constructor
  · simpa [pointsFor, sumMethods] using h1
  · simpa [sumMethods] using h3

theorem lowmemoryAsyncCollect_eq {N S : Type} (M : Methods N S)
    (seq : Sequence) (data : InstMap S notUsed) : ∀ pts : List (Point S),
    lowmemoryAsyncCollect M seq data pts =
      (pts ++ data.map
        (fun e => ⟨e.1, e.2.storage, .Cumulative, seq.start, seq.now⟩), []) := by
  induction data with
  | nil => intro pts; simp [lowmemoryAsyncCollect]
  | cons e rest ih =>
    intro pts
    obtain ⟨set, entry⟩ := e
    simp [lowmemoryAsyncCollect, ih]

/-- C8: the low-memory-asynchronous Collect appends one point per entry,
as-is (the emitted aggregation is the entry's storage, unmoved), with
cumulative temporality and time range `[seq.Start, seq.Now]`, and then
unconditionally replaces the map with an empty one: the post-collection
entry count is zero whatever the map held. -/
theorem lowmemoryAsync_collect_reset_spec :
    ∀ (N S : Type) (M : Methods N S) (seq : Sequence)
      (data : InstMap S notUsed) (pts : List (Point S)),
      (lowmemoryAsyncCollect M seq data pts).1 =
        pts ++ data.map
          (fun e => ⟨e.1, e.2.storage, .Cumulative, seq.start, seq.now⟩)
      ∧ (lowmemoryAsyncCollect M seq data pts).2 = []
      ∧ ((lowmemoryAsyncCollect M seq data pts).2).length = 0 := by
  intro N S M seq data pts
  rw [lowmemoryAsyncCollect_eq]
  exact ⟨rfl, rfl, rfl⟩

/-- C7: the synchronous accumulator's SnapshotAndProcess moves `current`
into `snapshot` (leaving `current` reset to the zero-initialized
storage), merges the snapshot into the bound holder's storage, and
decrements the holder's reference count by exactly one when and only
when `release` is true. -/
theorem syncAccumulator_snapshotAndProcess_spec :
    ∀ (N S : Type) (M : Methods N S) (release : Bool)
      (a : syncAccumulator S) (h : storageHolder S Int),
      (syncSnapshotAndProcess M release a h).1.snapshot = a.current
      ∧ (syncSnapshotAndProcess M release a h).1.current = M.init
      ∧ (syncSnapshotAndProcess M release a h).2.storage =
          M.merge a.current h.storage
      ∧ (syncSnapshotAndProcess M release a h).2.auxiliary =
          (if release then h.auxiliary - 1 else h.auxiliary) := by
  intro N S M release a h
  refine ⟨rfl, rfl, rfl, ?_⟩
  cases release <;> simp [syncSnapshotAndProcess]

/-- C10: the asynchronous accumulator's SnapshotAndProcess ignores its
release argument and applies the staged value to the holder's storage
through the algebra's Update with empty exemplar bits on every call;
with the sum algebra and a nonzero staged value, calling it twice
without an intervening Update is not the same as calling it once. -/
theorem asyncAccumulator_snapshotAndProcess_spec :
    (∀ (N S : Type) (M : Methods N S) (r1 r2 : Bool) (cur : N) (hs : S),
       asyncSnapshotAndProcess M r1 cur hs =
         asyncSnapshotAndProcess M r2 cur hs)
    ∧ (∀ (N S : Type) (M : Methods N S) (r : Bool) (cur : N) (hs : S),
         asyncSnapshotAndProcess M r cur hs = M.update hs cur ⟨⟩)
    ∧ (∀ (r1 r2 : Bool) (c hs : Int), c ≠ 0 →
         asyncSnapshotAndProcess sumMethods r2 c
             (asyncSnapshotAndProcess sumMethods r1 c hs) ≠
           asyncSnapshotAndProcess sumMethods r1 c hs) := by
  refine ⟨fun _ _ _ _ _ _ _ => rfl, fun _ _ _ _ _ _ => rfl, ?_⟩
  intro r1 r2 c hs hc
  simp only [asyncSnapshotAndProcess, sumMethods]
  omega

/-- C10 witness: with staged value 3 on holder 0, one application yields
3 and a second application yields 6. -/
theorem asyncAccumulator_snapshotAndProcess_spec_witness :
    asyncSnapshotAndProcess sumMethods true 3
        (asyncSnapshotAndProcess sumMethods true 3 (0 : Int)) ≠
      asyncSnapshotAndProcess sumMethods true 3 (0 : Int) :=
  asyncAccumulator_snapshotAndProcess_spec.2.2 true true 3 0 (by decide)

theorem processAll_replicate (v : Int) : ∀ (n : Nat) (h : storageHolder Int Int),
    processAll sumMethods (nUpdatedAccumulators n v) h =
      ⟨h.storage + n * v, h.auxiliary - n⟩ := by
  intro n
  induction n with
  | zero => intro h; simp [processAll, nUpdatedAccumulators]
  | succ m ih =>
    intro h
    simp only [nUpdatedAccumulators, List.replicate_succ, processAll,
      List.foldl_cons]
    have := ih ⟨h.storage + ((0 : Int) + v), h.auxiliary - 1⟩
    simp only [nUpdatedAccumulators, processAll] at this
    rw [show (syncSnapshotAndProcess sumMethods true
        (syncUpdate sumMethods (newSyncAccumulator sumMethods) v
          ExemplarBits.mk) h).2 =
        ⟨h.storage + ((0 : Int) + v), h.auxiliary - 1⟩ from rfl, this]
    simp only [storageHolder.mk.injEq]
    constructor <;> push_cast <;> ring

/-- C4: no lost updates — `n` accumulators bound to one holder (whose
reference count therefore starts at `n`), each updated once with `v` and
each snapshot-processed with release=true, leave the holder with total
`n * v` and reference count zero, and the subsequent stateful-sync
Collect reports the total `n * v` in exactly one point.  The updates
touch disjoint accumulator-private state and the shared merges commute,
so the sequential fold covers every interleaving of the concurrent
schedule. -/
theorem sync_no_lost_updates_spec :
    ∀ (n : Nat) (v : Int) (k : AttrSet) (seq : Sequence),
      (processAll sumMethods (nUpdatedAccumulators n v)
        ⟨0, (n : Int)⟩).storage = n * v
      ∧ (processAll sumMethods (nUpdatedAccumulators n v)
          ⟨0, (n : Int)⟩).auxiliary = 0
      ∧ statefulSyncCollect sumMethods seq
          [(k, processAll sumMethods (nUpdatedAccumulators n v)
            ⟨0, (n : Int)⟩)] [] =
        [⟨k, (n : Int) * v, .Cumulative, seq.start, seq.now⟩] := by
  intro n v k seq
  rw [processAll_replicate v n ⟨0, (n : Int)⟩]
  refine ⟨by simp, by simp, ?_⟩
  simp [statefulSyncCollect]

end viewstate

/-- C5: Number round-trips losslessly — for every int64 `i`,
`ToInt64(FromInt64(i)) = i` (negative values through two's-complement
reinterpretation), and for every float64, the bit pattern read back by
`ToFloat64(FromFloat64(f))` equals the bit pattern of `f` (NaN, the
infinities and the signed zeros are particular bit patterns, all
covered). -/
theorem number_roundtrip_spec :
    (∀ i : Int, -(2 ^ 63) ≤ i → i < 2 ^ 63 →
       number.ToInt64 (number.FromInt64 i) = i)
    ∧ (∀ b : Nat, b < 2 ^ 64 →
         number.ToFloat64 (number.FromFloat64 b) = b) := by
  constructor
  · intro i h1 h2
    simp only [number.ToInt64, number.FromInt64]
    split_ifs <;> omega
  · intro b hb
    simp only [number.ToFloat64, number.FromFloat64]
    omega

/-- C5 witness: the round-trips at `i = -5` and at the canonical NaN bit
pattern. -/
theorem number_roundtrip_spec_witness :
    number.ToInt64 (number.FromInt64 (-5)) = -5
    ∧ number.ToFloat64 (number.FromFloat64 0x7FF8000000000000) =
        0x7FF8000000000000 :=
  ⟨number_roundtrip_spec.1 (-5) (by decide) (by decide),
   number_roundtrip_spec.2 0x7FF8000000000000 (by decide)⟩

/-- C6: evidence against the claim that `CoerceToFloat64(FromInt64 i,
Int64Kind)` equals the float64 conversion of the signed integer `i`: at
`i = -1` the code converts the unsigned reinterpretation `2^64 − 1`,
producing the bit pattern of `+2^64 ≈ 1.845e19` (sign bit clear), while
the float64 conversion of the signed integer `-1` is `-1.0` (sign bit
set). -/
theorem number_coerceToFloat64_signed_bug :
    number.CoerceToFloat64 (number.FromInt64 (-1)) number.Kind.Int64Kind =
      number.uint64ToFloat64Bits (2 ^ 64 - 1)
    ∧ number.uint64ToFloat64Bits (2 ^ 64 - 1) = 0x43F0000000000000
    ∧ number.int64ToFloat64Bits (-1) = 0xBFF0000000000000
    ∧ number.CoerceToFloat64 (number.FromInt64 (-1)) number.Kind.Int64Kind ≠
        number.int64ToFloat64Bits (-1) :=
  ⟨by decide, by decide, by decide, by decide⟩
